import Mathlib

/-!
Shallow embedding of `src/update.py` (an update-package manager with a
dependency-graph store, a zip delta engine and a lifecycle orchestrator).

Python dicts are modelled as insertion-ordered association lists over
`String` keys (`alGet` / `alSet` / `alErase` mirror `d[k]`, `d[k] = v`
and `del` / file deletion).  The primary folder's file tree is modelled
as an association list from target path to file content (a `Nat`); only
regular files are modelled, directory creation/cleanup is elided.  The
interactive prompts of the source are modelled as explicit boolean /
list inputs, following the source's control flow (the spec itself calls
prompts "decision points exposed as explicit inputs").
-/

/-- Python dict membership test (`k in d`). -/
def alContains {α : Type} (m : List (String × α)) (k : String) : Bool :=
  m.any (fun p => p.1 == k)

/-- Python dict lookup (`d.get(k)`). -/
def alGet {α : Type} (m : List (String × α)) (k : String) : Option α :=
  (m.find? (fun p => p.1 == k)).map (·.2)

/-- Replacement of the entry for `k` (helper of `alSet`). -/
def alSetEntry {α : Type} (k : String) (v : α) (p : String × α) : String × α :=
  if p.1 == k then (k, v) else p

/-- Python dict assignment (`d[k] = v`): replaces in place, or appends a new
key at the end (dicts are insertion ordered). -/
def alSet {α : Type} (m : List (String × α)) (k : String) (v : α) : List (String × α) :=
  if alContains m k then m.map (alSetEntry k v) else m ++ [(k, v)]

/-- Removal of a key (used to model a file deletion / an archive moved out of
a bucket directory). -/
def alErase {α : Type} (m : List (String × α)) (k : String) : List (String × α) :=
  m.filter (fun p => !(p.1 == k))

/-- Python `d.get(k, [])` as used by the dependency-graph store. -/
def sGetD (m : List (String × List String)) (k : String) : List String :=
  (alGet m k).getD []

/-- The persisted dependency graph `dependencies.json`:
`{"dependencies": {name: [name,...]}, "dependents": {name: [name,...]}}`. -/
structure DepData where
  dependencies : List (String × List String)
  dependents : List (String × List String)
deriving DecidableEq

/-- The graph loaded when the file is absent or malformed
(`load_dependencies`). -/
def emptyDepData : DepData := ⟨[], []⟩

/-- Body of the `for dep in dependencies` loop of `update_dependencies`
(src/update.py:89-93): create an empty dependents entry when missing, then
append `update_name` when not already present. -/
def depStep (m : List (String × List String)) (update_name dep : String) :
    List (String × List String) :=
  let m1 := if alContains m dep then m else alSet m dep []
  let cur := sGetD m1 dep
  if cur.contains update_name then m1 else alSet m1 dep (cur ++ [update_name])

/-- `update_dependencies` (src/update.py:81-95): overwrite
`dependencies[update_name]` and grow the reverse index. -/
def update_dependencies (d : DepData) (update_name : String) (deps : List String) : DepData :=
  { dependencies := alSet d.dependencies update_name deps,
    dependents := deps.foldl (fun m dep => depStep m update_name dep) d.dependents }

/-- A sequence of `update_dependencies` calls starting from the empty graph
(the state left by any run of the program on a fresh `dependencies.json`). -/
def recordAll (ops : List (String × List String)) : DepData :=
  ops.foldl (fun d op => update_dependencies d op.1 op.2) emptyDepData

/-- Body of the `for dep in removed_deps` loop of `check_unused_dependencies`
(src/update.py:120-133): skip a dependency that is not installed, then keep it
as unused unless some other installed update still lists it as a dependent. -/
def cudStep (d : DepData) (installed_updates : List String) (removed_update : String)
    (unused_deps : List String) (dep : String) : List String :=
  if installed_updates.contains dep = false then unused_deps
  else
    let still_needed := (sGetD d.dependents dep).any
      (fun dependent => dependent != removed_update && installed_updates.contains dependent)
    if still_needed then unused_deps else unused_deps ++ [dep]

/-- `check_unused_dependencies` (src/update.py:110-135): for each dependency
of the removed update that is still installed, it is unused unless some
entry of the stored `dependents` index other than the removed update is
itself installed. -/
def check_unused_dependencies (d : DepData) (installed_updates : List String)
    (removed_update : String) : List String :=
  (sGetD d.dependencies removed_update).foldl (cudStep d installed_updates removed_update) []

/-- The graph state reached by recording `B -> [A]`, re-recording `B -> []`
and recording `X -> [A]`: the stored dependents index still lists `B` as a
dependent of `A` even though `B` no longer declares `A`. -/
def staleGraph : DepData :=
  recordAll [("B.zip", ["A.zip"]), ("B.zip", ([] : List String)), ("X.zip", ["A.zip"])]

-- ### Archive delta engine (src/update.py:212-337)

/-- One entry of a zip archive: its internal relative path, whether it is a
directory marker (a name ending in `/`), and the file content it carries
(contents are abstracted to naturals). -/
structure ZipEntry where
  path : String
  isDir : Bool
  content : Nat
deriving DecidableEq

/-- An archive on disk: whether the path exists (`os.path.exists`), whether
the container is a readable zip (`zipfile.BadZipFile` otherwise), and its
entries. -/
structure Archive where
  present : Bool
  valid : Bool
  entries : List ZipEntry
deriving DecidableEq

/-- The primary folder's files: target path to content. -/
abbrev FS := List (String × Nat)

/-- `os.path.join(primary_folder, relative_path)`. -/
def joinPath (dir rel : String) : String := dir ++ "/" ++ rel

/-- Result triple of `analyze_update_zip`. -/
structure AnalyzeResult where
  removed : List String
  not_found : List String
  failed : List (String × String)
deriving DecidableEq

/-- Body of the per-entry loop of `analyze_update_zip` (src/update.py:237-264):
skip directory markers; delete the mirrored target when it exists, recording
it under `removed`, otherwise record it under `not_found`. -/
def analyzeStep (primary_folder : String) (st : AnalyzeResult × FS) (e : ZipEntry) :
    AnalyzeResult × FS :=
  if e.isDir then st
  else
    let primary_file_path := joinPath primary_folder e.path
    if alContains st.2 primary_file_path then
      ({ st.1 with removed := st.1.removed ++ [primary_file_path] },
        alErase st.2 primary_file_path)
    else
      ({ st.1 with not_found := st.1.not_found ++ [primary_file_path] }, st.2)

/-- `analyze_update_zip` (src/update.py:212-273): reverse an archive's delta
against the primary folder.  The three guard clauses return a synthetic
single failure entry and leave the file system untouched; directory-cleanup
of emptied directories is not modelled (only regular files are). -/
def analyze_update_zip (ar : Archive) (primary_present : Bool) (fs : FS)
    (update_zip_path primary_folder : String) : AnalyzeResult × FS :=
  if ar.present = false then (⟨[], [], [(update_zip_path, "File not found")]⟩, fs)
  else if primary_present = false then (⟨[], [], [(primary_folder, "Directory not found")]⟩, fs)
  else if ar.valid = false then (⟨[], [], [(update_zip_path, "Invalid zip file")]⟩, fs)
  else ar.entries.foldl (analyzeStep primary_folder) (⟨[], [], []⟩, fs)

/-- Result triple of `apply_update_zip`. -/
structure ApplyResult where
  copied : List String
  overwritten : List String
  failed : List (String × String)
deriving DecidableEq

/-- Body of the per-file loop of `apply_update_zip` (src/update.py:302-328):
the walk over the extracted scratch tree is modelled as a fold over the
archive's regular-file entries; an already-existing target is overwritten and
recorded under `overwritten`, a fresh target is recorded under `copied`. -/
def applyStep (primary_folder : String) (st : ApplyResult × FS) (e : ZipEntry) :
    ApplyResult × FS :=
  if e.isDir then st
  else
    let target_file_path := joinPath primary_folder e.path
    if alContains st.2 target_file_path then
      ({ st.1 with overwritten := st.1.overwritten ++ [target_file_path] },
        alSet st.2 target_file_path e.content)
    else
      ({ st.1 with copied := st.1.copied ++ [target_file_path] },
        alSet st.2 target_file_path e.content)

/-- `apply_update_zip` (src/update.py:276-337): apply an archive's delta to
the primary folder.  Guard clauses mirror `analyze_update_zip`; extraction of
a corrupt container fails before any file is copied. -/
def apply_update_zip (ar : Archive) (primary_present : Bool) (fs : FS)
    (update_zip_path primary_folder : String) : ApplyResult × FS :=
  if ar.present = false then (⟨[], [], [(update_zip_path, "File not found")]⟩, fs)
  else if primary_present = false then (⟨[], [], [(primary_folder, "Directory not found")]⟩, fs)
  else if ar.valid = false then (⟨[], [], [(update_zip_path, "Invalid zip file")]⟩, fs)
  else ar.entries.foldl (applyStep primary_folder) (⟨[], [], []⟩, fs)

-- ### Cycle-safe graph rendering (src/update.py:653-673)

/-- `print_dependencies` (src/update.py:653-673), returning the printed lines.
The traversal carries the current ancestor path in `visited`; a dependency on
the path is printed once with the `(circular dependency)` annotation and not
expanded.  The function is accepted by the termination checker with the
measure (number of dependency-map keys not yet on the path, length of the
remaining sibling list), which is the formal termination argument for any
finite graph, cyclic ones included. -/
def print_dependencies (d : DepData) (installed_updates : List String) :
    String → List String → List String → List String
  | _, _, [] => []
  | indent, visited, dep :: rest =>
    let pfx := if rest.isEmpty then "└── " else "├── "
    let status := if installed_updates.contains dep then "[INSTALLED]" else "[MISSING]"
    if h1 : visited.contains dep then
      (indent ++ pfx ++ dep ++ " " ++ status ++ " (circular dependency)") ::
        print_dependencies d installed_updates indent visited rest
    else
      let sub_deps := sGetD d.dependencies dep
      if h2 : sub_deps.isEmpty then
        (indent ++ pfx ++ dep ++ " " ++ status) ::
          print_dependencies d installed_updates indent visited rest
      else
        let next_indent := indent ++ (if rest.isEmpty then "    " else "│   ")
        (indent ++ pfx ++ dep ++ " " ++ status) ::
          (print_dependencies d installed_updates next_indent (visited ++ [dep]) sub_deps ++
            print_dependencies d installed_updates indent visited rest)
termination_by indent visited deps =>
  (((d.dependencies.map Prod.fst).filter (fun k => !(visited.contains k))).length, deps.length)
decreasing_by
  · apply Prod.Lex.right
    simp
  · apply Prod.Lex.right
    simp
  · apply Prod.Lex.left
    have hkey : dep ∈ d.dependencies.map Prod.fst := by
      have hne : sGetD d.dependencies dep ≠ [] := by
        intro hnil
        have h2' : ¬(sGetD d.dependencies dep).isEmpty = true := h2
        rw [hnil] at h2'
        exact h2' rfl
      cases hg : alGet d.dependencies dep with
      | none => exact absurd (by simp [sGetD, hg]) hne
      | some l =>
        unfold alGet at hg
        obtain ⟨p, hp1, hp2⟩ := Option.map_eq_some'.mp hg
        have hpm := List.mem_of_find?_eq_some hp1
        have hpk := List.find?_some hp1
        exact List.mem_map.mpr ⟨p, hpm, by simpa using hpk⟩
    have hnv : dep ∉ visited := by
      intro hmem
      exact h1 (by simpa using hmem)
    have hsub : List.Sublist
        ((d.dependencies.map Prod.fst).filter (fun k => !((visited ++ [dep]).contains k)))
        ((d.dependencies.map Prod.fst).filter (fun k => !(visited.contains k))) := by
      apply List.monotone_filter_right
      intro a ha
      have ha' : a ∉ visited ++ [dep] := by simpa using ha
      have hav : a ∉ visited := fun hm => ha' (List.mem_append_left _ hm)
      simpa using hav
    have hmem_q : dep ∈ (d.dependencies.map Prod.fst).filter
        (fun k => !(visited.contains k)) := by
      apply List.mem_filter.mpr
      exact ⟨hkey, by simpa using hnv⟩
    have hmem_p : dep ∉ (d.dependencies.map Prod.fst).filter
        (fun k => !((visited ++ [dep]).contains k)) := by
      intro hmem
      have hx := (List.mem_filter.mp hmem).2
      simp at hx
    have hne2 : ((d.dependencies.map Prod.fst).filter (fun k => !((visited ++ [dep]).contains k))) ≠
        ((d.dependencies.map Prod.fst).filter (fun k => !(visited.contains k))) := by
      intro heq
      rw [heq] at hmem_p
      exact hmem_p hmem_q
    exact Nat.lt_of_le_of_ne hsub.length_le (fun hlen => hne2 (hsub.eq_of_length hlen))

-- ### Lifecycle orchestrator (src/update.py:340-608)

/-- `os.path.splitext`, modelled for ordinary archive names: split before the
last dot (the Python special case for names that start with a dot is not
modelled; bucket names here are of the shape `pkg.zip`). -/
def splitExt (name : String) : String × String :=
  let rev := name.data.reverse
  let after := rev.takeWhile (fun c => c != '.')
  if after.length = rev.length then (name, "")
  else (String.mk ((rev.drop (after.length + 1)).reverse), String.mk ('.' :: after.reverse))

/-- The collision name `f"{base}_{i}{ext}"` of src/update.py:575. -/
def suffixName (base ext : String) (i : Nat) : String :=
  base ++ "_" ++ toString i ++ ext

/-- The `while os.path.exists(...)` collision loop of src/update.py:574-576,
searching the first free suffix from `i` upward.  The loop is given explicit
fuel to be total; with enough fuel it returns the first free name. -/
def findFreeName (installed_names : List String) (base ext : String) : Nat → Nat → Option String
  | _, 0 => none
  | i, fuel + 1 =>
    let cand := suffixName base ext i
    if installed_names.contains cand then findFreeName installed_names base ext (i + 1) fuel
    else some cand

/-- The relocation-target computation of src/update.py:570-577: keep the
plain name when free, otherwise append `_1`, `_2`, ... until a free name is
found. -/
def resolveTargetName (installed_names : List String) (zip_name : String) (fuel : Nat) :
    Option String :=
  if installed_names.contains zip_name then
    findFreeName installed_names (splitExt zip_name).1 (splitExt zip_name).2 1 fuel
  else some zip_name

/-- The answers a user gives at the two prompts of the per-item removal path:
remove despite installed dependents, and remove unused dependencies. -/
structure RemoveDecisions where
  confirm_remove : Bool
  remove_unused : Bool
deriving DecidableEq

/-- The state the orchestrator operates on: the primary folder's files, the
three archive buckets (update root + `_uninstalled_` are the Available
source, `_installed_`, `_uninstalled_`), and the persisted graph. -/
structure SysState where
  fs : FS
  available : List (String × Archive)
  installed : List (String × Archive)
  uninstalled : List (String × Archive)
  dep_data : DepData
deriving DecidableEq

/-- The cascade body of src/update.py:499-509: for one unused dependency,
reverse its delta and relocate it to `_uninstalled_` when at least one file
was removed.  A dependency without an archive in `_installed_` is skipped
(`if os.path.exists(dep_path)`). -/
def cascade_remove_one (pp : Bool) (pf : String) (s : SysState) (dep : String) : SysState :=
  match alGet s.installed dep with
  | none => s
  | some ar =>
    let r := analyze_update_zip ar pp s.fs dep pf
    let s1 := { s with fs := r.2 }
    if r.1.removed.length > 0 then
      { s1 with installed := alErase s1.installed dep,
                uninstalled := alErase s1.uninstalled dep ++ [(dep, ar)] }
    else s1

/-- The per-item body of `remove_selected_updates` (src/update.py:452-514):
dependents warning gate, delta reversal, conditional relocation, then orphan
detection (over the post-move installed set) and the optional cascade. -/
def remove_selected_step (pp : Bool) (pf : String) (s : SysState) (zip_name : String)
    (dec : RemoveDecisions) : SysState :=
  match alGet s.installed zip_name with
  | none => s
  | some ar =>
    let dependents := sGetD s.dep_data.dependents zip_name
    let installed_names := s.installed.map Prod.fst
    let actual_dependents := dependents.filter (fun q => installed_names.contains q)
    if actual_dependents.isEmpty = false ∧ dec.confirm_remove = false then s
    else
      let r := analyze_update_zip ar pp s.fs zip_name pf
      let s1 := { s with fs := r.2 }
      if r.1.removed.length > 0 then
        let s2 := { s1 with installed := alErase s1.installed zip_name,
                            uninstalled := alErase s1.uninstalled zip_name ++ [(zip_name, ar)] }
        let unused := check_unused_dependencies s2.dep_data (s2.installed.map Prod.fst) zip_name
        if unused.isEmpty = false ∧ dec.remove_unused = true then
          unused.foldl (cascade_remove_one pp pf) s2
        else s2
      else s1

/-- The per-item body of the `remove_all_updates` loop (src/update.py:362-381):
delta reversal and conditional relocation only — no dependents warning gate,
no orphan detection. -/
def remove_all_step (pp : Bool) (pf : String) (s : SysState) (zip_name : String) : SysState :=
  match alGet s.installed zip_name with
  | none => s
  | some ar =>
    let r := analyze_update_zip ar pp s.fs zip_name pf
    let s1 := { s with fs := r.2 }
    if r.1.removed.length > 0 then
      { s1 with installed := alErase s1.installed zip_name,
                uninstalled := alErase s1.uninstalled zip_name ++ [(zip_name, ar)] }
    else s1

/-- `remove_all_updates` (src/update.py:340-384): one confirmation for the
whole batch, then the per-item loop over the installed listing in listing
order. -/
def remove_all_updates (pp : Bool) (pf : String) (confirmed : Bool) (s : SysState) : SysState :=
  let names := s.installed.map Prod.fst
  if names.isEmpty then s
  else if confirmed = false then s
  else names.foldl (remove_all_step pp pf) s

/-- The per-item body of `install_selected_updates` (src/update.py:540-584):
a `none` dependency selection is the cancel signal; otherwise record
dependencies, apply the delta, and relocate to `_installed_` (resolving name
collisions) only when at least one file was copied or overwritten.  `fuel`
bounds the collision loop. -/
def install_selected_step (pp : Bool) (pf : String) (fuel : Nat) (s : SysState)
    (zip_name : String) (chosen : Option (List String)) : SysState :=
  match chosen with
  | none => s
  | some deps =>
    let ar := (alGet s.available zip_name).getD ⟨false, true, []⟩
    let dd := update_dependencies s.dep_data zip_name deps
    let r := apply_update_zip ar pp s.fs zip_name pf
    let s1 := { s with fs := r.2, dep_data := dd }
    if r.1.copied.length > 0 || r.1.overwritten.length > 0 then
      match resolveTargetName (s1.installed.map Prod.fst) zip_name fuel with
      | some t =>
        { s1 with available := alErase s1.available zip_name,
                  installed := s1.installed ++ [(t, ar)] }
      | none => s1
    else s1

-- ### Concrete states used by counterexamples and witnesses

/-- A dependency graph with the two-cycle `A -> B -> A`. -/
def cycleGraph : DepData := ⟨[("A", ["B"]), ("B", ["A"])], []⟩

/-- Archive of package `A.zip`: one file `a.txt`. -/
def arA : Archive := ⟨true, true, [⟨"a.txt", false, 1⟩]⟩

/-- Archive of package `B.zip`: one file `b.txt`. -/
def arB : Archive := ⟨true, true, [⟨"b.txt", false, 2⟩]⟩

/-- A state where `B.zip` is installed, depends on `A.zip` (also installed),
and both archives' files are present in the primary folder `prim`. -/
def cascadeState : SysState :=
  ⟨[("prim/a.txt", 1), ("prim/b.txt", 2)], [],
   [("A.zip", arA), ("B.zip", arB)], [],
   ⟨[("B.zip", ["A.zip"])], [("A.zip", ["B.zip"])]⟩⟩

/-- A state with a single installed package `A.zip` and no dependency data. -/
def plainState : SysState :=
  ⟨[("prim/a.txt", 1)], [], [("A.zip", arA)], [], ⟨[], []⟩⟩

/-- Archive carrying `x.txt`, used by the relocation-gate witness. -/
def arX : Archive := ⟨true, true, [⟨"x.txt", false, 7⟩]⟩

/-- Archive carrying `y.txt`, used by the relocation-gate witness. -/
def arY : Archive := ⟨true, true, [⟨"y.txt", false, 8⟩]⟩

/-- A state where the name `A.zip` is both available (as `arX`) and already
installed (as `arY`), so an install must resolve the name collision. -/
def gateState : SysState :=
  ⟨[("p/x.txt", 0), ("p/y.txt", 1)],
   [("A.zip", arX)], [("A.zip", arY)], [], ⟨[], []⟩⟩

/-- An archive whose path does not exist. -/
def missingArchive : Archive := ⟨false, true, []⟩

/-- An ordinary install state: `A.zip` is available and nothing is installed,
so its relocation needs no collision suffix. -/
def availOnlyState : SysState :=
  ⟨[("p/x.txt", 0)], [("A.zip", arX)], [], [], ⟨[], []⟩⟩

-- ### Association-list lemmas

theorem alGet_nil {α : Type} (k : String) : alGet ([] : List (String × α)) k = none := rfl

theorem alGet_cons {α : Type} (p : String × α) (m : List (String × α)) (k : String) :
    alGet (p :: m) k = if p.1 == k then some p.2 else alGet m k := by
  cases h : p.1 == k <;> simp [alGet, List.find?_cons, h]

theorem alContains_cons {α : Type} (p : String × α) (m : List (String × α)) (k : String) :
    alContains (p :: m) k = (p.1 == k || alContains m k) := by
  simp [alContains]

theorem alGet_eq_none_of_not_contains {α : Type} {m : List (String × α)} {k : String}
    (h : alContains m k = false) : alGet m k = none := by
  induction m with
  | nil => rfl
  | cons p m ih =>
    rw [alContains_cons] at h
    rcases Bool.or_eq_false_iff.mp h with ⟨h1, h2⟩
    rw [alGet_cons, h1, if_neg (by simp)]
    exact ih h2

theorem alContains_eq_isSome {α : Type} (m : List (String × α)) (k : String) :
    alContains m k = (alGet m k).isSome := by
  induction m with
  | nil => rfl
  | cons p m ih =>
    rw [alContains_cons, alGet_cons]
    cases h : p.1 == k <;> simp [h, ih]

theorem alGet_append_single_self {α : Type} {m : List (String × α)} {k : String} (v : α)
    (h : alContains m k = false) : alGet (m ++ [(k, v)]) k = some v := by
  induction m with
  | nil => simp [alGet]
  | cons p m ih =>
    rw [alContains_cons] at h
    rcases Bool.or_eq_false_iff.mp h with ⟨h1, h2⟩
    rw [List.cons_append, alGet_cons, h1, if_neg (by simp)]
    exact ih h2

theorem alSetEntry_keep {α : Type} (k : String) (v : α) (p : String × α)
    (hp : p.1 ≠ k) : alSetEntry k v p = p := by
  simp [alSetEntry, hp]

theorem alSetEntry_swap {α : Type} (k : String) (v : α) (p : String × α)
    (hp : p.1 = k) : alSetEntry k v p = (k, v) := by
  simp [alSetEntry, hp]

theorem alGet_map_set_self {α : Type} (m : List (String × α)) (k : String) (v : α) :
    alGet (m.map (alSetEntry k v)) k = if alContains m k then some v else none := by
  induction m with
  | nil => rfl
  | cons p m ih =>
    rw [List.map_cons, alContains_cons]
    by_cases hp : p.1 = k
    · rw [alSetEntry_swap k v p hp, alGet_cons]
      simp [hp]
    · rw [alSetEntry_keep k v p hp, alGet_cons]
      simp [hp, ih]

theorem alGet_map_set_ne {α : Type} (m : List (String × α)) (k k' : String) (v : α)
    (hne : k' ≠ k) : alGet (m.map (alSetEntry k v)) k' = alGet m k' := by
  induction m with
  | nil => rfl
  | cons p m ih =>
    rw [List.map_cons]
    by_cases hp : p.1 = k
    · rw [alSetEntry_swap k v p hp, alGet_cons, alGet_cons]
      have h1 : ¬(k = k') := fun hx => hne hx.symm
      simp [hp, h1, ih]
    · rw [alSetEntry_keep k v p hp, alGet_cons, alGet_cons]
      by_cases h2 : p.1 = k' <;> simp [h2, ih]

theorem alGet_append_single_ne {α : Type} (m : List (String × α)) (k k' : String) (v : α)
    (hne : k' ≠ k) : alGet (m ++ [(k, v)]) k' = alGet m k' := by
  induction m with
  | nil =>
    have h1 : ¬(k = k') := fun hx => hne hx.symm
    simp [alGet_cons, alGet_nil, h1]
  | cons p m ih =>
    rw [List.cons_append, alGet_cons, alGet_cons]
    by_cases h2 : p.1 = k' <;> simp [h2, ih]

theorem alGet_alSet_self {α : Type} (m : List (String × α)) (k : String) (v : α) :
    alGet (alSet m k v) k = some v := by
  unfold alSet
  cases h : alContains m k with
  | true => rw [if_pos rfl, alGet_map_set_self, if_pos h]
  | false => rw [if_neg (by simp), alGet_append_single_self v h]

theorem alGet_alSet_ne {α : Type} (m : List (String × α)) (k k' : String) (v : α)
    (hne : k' ≠ k) : alGet (alSet m k v) k' = alGet m k' := by
  unfold alSet
  cases h : alContains m k with
  | true => rw [if_pos rfl, alGet_map_set_ne m k k' v hne]
  | false => rw [if_neg (by simp), alGet_append_single_ne m k k' v hne]

-- ### Dependency-store lemmas

theorem sGetD_eq_nil_of_not_contains {m : List (String × List String)} {k : String}
    (h : alContains m k = false) : sGetD m k = [] := by
  simp [sGetD, alGet_eq_none_of_not_contains h]

theorem sGetD_alSet_self (m : List (String × List String)) (k : String) (v : List String) :
    sGetD (alSet m k v) k = v := by
  simp [sGetD, alGet_alSet_self]

theorem sGetD_alSet_ne (m : List (String × List String)) (k k' : String) (v : List String)
    (hne : k' ≠ k) : sGetD (alSet m k v) k' = sGetD m k' := by
  simp [sGetD, alGet_alSet_ne m k k' v hne]

theorem depStep_base (m : List (String × List String)) (dep : String) :
    sGetD (if alContains m dep then m else alSet m dep []) dep = sGetD m dep := by
  cases hc : alContains m dep with
  | true => rw [if_pos rfl]
  | false =>
    rw [if_neg (by simp), sGetD_alSet_self, sGetD_eq_nil_of_not_contains hc]

theorem depStep_base_ne (m : List (String × List String)) (dep k : String) (hk : k ≠ dep) :
    sGetD (if alContains m dep then m else alSet m dep []) k = sGetD m k := by
  cases hc : alContains m dep with
  | true => rw [if_pos rfl]
  | false => rw [if_neg (by simp), sGetD_alSet_ne m dep k [] hk]

theorem depStep_get_self (m : List (String × List String)) (n dep : String) :
    sGetD (depStep m n dep) dep =
      if (sGetD m dep).contains n then sGetD m dep else sGetD m dep ++ [n] := by
  simp only [depStep]
  rw [depStep_base]
  cases hm : (sGetD m dep).contains n with
  | true => rw [if_pos rfl, if_pos rfl]; exact depStep_base m dep
  | false => rw [if_neg Bool.false_ne_true, if_neg Bool.false_ne_true, sGetD_alSet_self]

theorem depStep_get_ne (m : List (String × List String)) (n dep k : String) (hk : k ≠ dep) :
    sGetD (depStep m n dep) k = sGetD m k := by
  simp only [depStep]
  rw [depStep_base]
  cases hm : (sGetD m dep).contains n with
  | true => rw [if_pos rfl]; exact depStep_base_ne m dep k hk
  | false =>
    rw [if_neg Bool.false_ne_true, sGetD_alSet_ne _ dep k _ hk]
    exact depStep_base_ne m dep k hk

theorem depStep_mem_self (m : List (String × List String)) (n dep : String) :
    n ∈ sGetD (depStep m n dep) dep := by
  rw [depStep_get_self]
  cases hm : (sGetD m dep).contains n with
  | true =>
    rw [if_pos rfl]
    simpa using hm
  | false =>
    rw [if_neg Bool.false_ne_true]
    exact List.mem_append_right _ (List.mem_singleton.mpr rfl)

theorem depStep_mem_mono (m : List (String × List String)) (n dep k x : String)
    (h : x ∈ sGetD m k) : x ∈ sGetD (depStep m n dep) k := by
  by_cases hk : k = dep
  · subst hk
    rw [depStep_get_self]
    cases hm : (sGetD m k).contains n with
    | true => rw [if_pos rfl]; exact h
    | false => rw [if_neg Bool.false_ne_true]; exact List.mem_append_left _ h
  · rw [depStep_get_ne m n dep k hk]; exact h

theorem foldDep_mem_mono (n : String) (deps : List String)
    (m : List (String × List String)) (k x : String) (h : x ∈ sGetD m k) :
    x ∈ sGetD (deps.foldl (fun m dep => depStep m n dep) m) k := by
  induction deps generalizing m with
  | nil => exact h
  | cons d rest ih =>
    rw [List.foldl_cons]
    exact ih (depStep m n d) (depStep_mem_mono m n d k x h)

theorem foldDep_mem (n : String) (deps : List String)
    (m : List (String × List String)) (dep : String) (h : dep ∈ deps) :
    n ∈ sGetD (deps.foldl (fun m d => depStep m n d) m) dep := by
  induction deps generalizing m with
  | nil => cases h
  | cons d rest ih =>
    rw [List.foldl_cons]
    rcases List.mem_cons.mp h with h1 | h1
    · subst h1
      exact foldDep_mem_mono n rest (depStep m n dep) dep n (depStep_mem_self m n dep)
    · exact ih (depStep m n d) h1

theorem depStep_count_self (m : List (String × List String)) (n dep : String)
    (hle : List.count n (sGetD m dep) ≤ 1) :
    List.count n (sGetD (depStep m n dep) dep) = 1 := by
  rw [depStep_get_self]
  cases hm : (sGetD m dep).contains n with
  | true =>
    rw [if_pos rfl]
    have hmem : n ∈ sGetD m dep := by simpa using hm
    have := List.count_pos_iff.mpr hmem
    omega
  | false =>
    rw [if_neg Bool.false_ne_true]
    have hmem : n ∉ sGetD m dep := by simpa using hm
    simp [List.count_append, List.count_eq_zero.mpr hmem]

theorem depStep_count_le (m : List (String × List String)) (n dep k x : String)
    (hle : List.count x (sGetD m k) ≤ 1) :
    List.count x (sGetD (depStep m n dep) k) ≤ 1 := by
  by_cases hk : k = dep
  · subst hk
    rw [depStep_get_self]
    cases hm : (sGetD m k).contains n with
    | true => rw [if_pos rfl]; exact hle
    | false =>
      rw [if_neg Bool.false_ne_true]
      have hmem : n ∉ sGetD m k := by simpa using hm
      by_cases hx : x = n
      · subst hx
        simp [List.count_append, List.count_eq_zero.mpr hmem]
      · simpa [List.count_append, List.count_singleton', hx] using hle
  · rw [depStep_get_ne m n dep k hk]; exact hle

theorem foldDep_count_le (n dep k x : String) (deps : List String) :
    ∀ m, List.count x (sGetD m k) ≤ 1 →
      List.count x (sGetD (deps.foldl (fun m d => depStep m n d) m) k) ≤ 1 := by
  induction deps with
  | nil => intro m h; exact h
  | cons d rest ih =>
    intro m h
    rw [List.foldl_cons]
    exact ih (depStep m n d) (depStep_count_le m n d k x h)

theorem foldDep_count (n dep : String) (deps : List String) :
    ∀ m, List.count n (sGetD m dep) ≤ 1 →
      List.count n (sGetD (deps.foldl (fun m d => depStep m n d) m) dep) =
        if dep ∈ deps then 1 else List.count n (sGetD m dep) := by
  induction deps with
  | nil => intro m h; simp
  | cons d rest ih =>
    intro m h
    rw [List.foldl_cons]
    by_cases hd : d = dep
    · subst hd
      have h1 : List.count n (sGetD (depStep m n d) d) = 1 := depStep_count_self m n d h
      rw [ih (depStep m n d) (le_of_eq h1), if_pos (List.mem_cons_self d rest)]
      by_cases hr : d ∈ rest
      · rw [if_pos hr]
      · rw [if_neg hr, h1]
    · have hne : dep ≠ d := fun hx => hd hx.symm
      have h2 : sGetD (depStep m n d) dep = sGetD m dep := depStep_get_ne m n d dep hne
      rw [ih (depStep m n d) (by rw [h2]; exact h), h2]
      by_cases hr : dep ∈ rest
      · rw [if_pos hr, if_pos (List.mem_cons_of_mem d hr)]
      · rw [if_neg hr, if_neg (by simp [hne, hr, List.mem_cons])]

theorem update_preserves_superset (d : DepData) (n : String) (deps : List String)
    (h : ∀ a b, a ∈ sGetD d.dependencies b → b ∈ sGetD d.dependents a) :
    ∀ a b, a ∈ sGetD (update_dependencies d n deps).dependencies b →
      b ∈ sGetD (update_dependencies d n deps).dependents a := by
  intro a b hab
  show b ∈ sGetD (deps.foldl (fun m dep => depStep m n dep) d.dependents) a
  by_cases hb : b = n
  · subst hb
    rw [show (update_dependencies d b deps).dependencies = alSet d.dependencies b deps from rfl,
      sGetD_alSet_self] at hab
    exact foldDep_mem b deps d.dependents a hab
  · rw [show (update_dependencies d n deps).dependencies = alSet d.dependencies n deps from rfl,
      sGetD_alSet_ne _ _ _ _ hb] at hab
    exact foldDep_mem_mono n deps d.dependents a b (h a b hab)

theorem recordAll_superset (ops : List (String × List String)) :
    ∀ a b, a ∈ sGetD (recordAll ops).dependencies b → b ∈ sGetD (recordAll ops).dependents a := by
  have aux : ∀ (l : List (String × List String)) (d : DepData),
      (∀ a b, a ∈ sGetD d.dependencies b → b ∈ sGetD d.dependents a) →
      ∀ a b, a ∈ sGetD (l.foldl (fun d op => update_dependencies d op.1 op.2) d).dependencies b →
        b ∈ sGetD (l.foldl (fun d op => update_dependencies d op.1 op.2) d).dependents a := by
    intro l
    induction l with
    | nil => intro d hd; exact hd
    | cons op rest ih =>
      intro d hd
      rw [List.foldl_cons]
      exact ih _ (update_preserves_superset d op.1 op.2 hd)
  apply aux
  intro a b hab
  simpa [emptyDepData, sGetD, alGet] using hab

theorem update_preserves_count (d : DepData) (n : String) (deps : List String)
    (h : ∀ k x, List.count x (sGetD d.dependents k) ≤ 1) :
    ∀ k x, List.count x (sGetD (update_dependencies d n deps).dependents k) ≤ 1 := by
  intro k x
  exact foldDep_count_le n n k x deps d.dependents (h k x)

theorem recordAll_count (ops : List (String × List String)) :
    ∀ k x, List.count x (sGetD (recordAll ops).dependents k) ≤ 1 := by
  have aux : ∀ (l : List (String × List String)) (d : DepData),
      (∀ k x, List.count x (sGetD d.dependents k) ≤ 1) →
      ∀ k x, List.count x (sGetD (l.foldl (fun d op => update_dependencies d op.1 op.2) d).dependents k) ≤ 1 := by
    intro l
    induction l with
    | nil => intro d hd; exact hd
    | cons op rest ih =>
      intro d hd
      rw [List.foldl_cons]
      exact ih _ (update_preserves_count d op.1 op.2 hd)
  apply aux
  intro k x
  simp [emptyDepData, sGetD, alGet]

theorem cudFold_eq (d : DepData) (ins : List String) (X : String) :
    ∀ (l init : List String),
      l.foldl (cudStep d ins X) init =
        init ++ l.filter (fun dep => ins.contains dep &&
          !((sGetD d.dependents dep).any (fun q => q != X && ins.contains q))) := by
  intro l
  induction l with
  | nil => intro init; simp
  | cons a l ih =>
    intro init
    rw [List.foldl_cons, List.filter_cons, ih]
    cases hc : ins.contains a with
    | false =>
      have hstep : cudStep d ins X init a = init := by
        simp only [cudStep]
        rw [hc, if_pos rfl]
      rw [hstep, Bool.false_and, if_neg Bool.false_ne_true]
    | true =>
      cases ha : (sGetD d.dependents a).any (fun q => q != X && ins.contains q) with
      | true =>
        have hstep : cudStep d ins X init a = init := by
          simp only [cudStep]
          rw [hc, if_neg (by decide), ha, if_pos rfl]
        rw [hstep, Bool.true_and, Bool.not_true, if_neg Bool.false_ne_true]
      | false =>
        have hstep : cudStep d ins X init a = init ++ [a] := by
          simp only [cudStep]
          rw [hc, if_neg (by decide), ha, if_neg (by decide)]
        rw [hstep, Bool.true_and, Bool.not_false, if_pos rfl, List.append_assoc,
          List.singleton_append]

/-- C1 (counterexample): the mutual-consistency iff fails on a reachable
state.  Recording `B -> [A]` and then re-recording `B -> []` leaves `B` in
`dependents[A]` while `A` is no longer in `dependencies[B]`. -/
theorem C1_counterexample :
    "B.zip" ∈ sGetD (recordAll [("B.zip", ["A.zip"]),
        ("B.zip", ([] : List String))]).dependents "A.zip" ∧
    "A.zip" ∉ sGetD (recordAll [("B.zip", ["A.zip"]),
        ("B.zip", ([] : List String))]).dependencies "B.zip" := by
  decide

/-- C1 (amended): after any sequence of `update_dependencies` calls starting
from the empty graph, the dependents index is a superset of the derived
reverse index: whenever `A ∈ dependencies[B]`, also `B ∈ dependents[A]`.
The converse direction of the claimed iff fails (see the counterexample)
because re-recording a package with a smaller dependency list never removes
stale dependents entries. -/
theorem C1_dependencies_imply_dependents (ops : List (String × List String)) (a b : String)
    (h : a ∈ sGetD (recordAll ops).dependencies b) :
    b ∈ sGetD (recordAll ops).dependents a :=
  recordAll_superset ops a b h

/-- Witness for C1: a concrete record sequence on which the amended
superset direction is checked. -/
theorem C1_witness :
    ("A.zip" ∈ sGetD (recordAll [("B.zip", ["A.zip"])]).dependencies "B.zip") ∧
    ("B.zip" ∈ sGetD (recordAll [("B.zip", ["A.zip"])]).dependents "A.zip") :=
  ⟨by decide, C1_dependencies_imply_dependents [("B.zip", ["A.zip"])] "A.zip" "B.zip" (by decide)⟩

/-- C10: recording dependencies only grows the reverse index — any entry of
the dependents map survives every `update_dependencies` call, including a
re-record of the same package with fewer dependencies. -/
theorem C10_dependents_never_shrink (d : DepData) (n : String) (deps : List String)
    (k x : String) (h : x ∈ sGetD d.dependents k) :
    x ∈ sGetD (update_dependencies d n deps).dependents k :=
  foldDep_mem_mono n deps d.dependents k x h

/-- Witness for C10: re-recording `B` with an empty dependency list keeps
`B` inside `dependents[A]`. -/
theorem C10_witness :
    ("B.zip" ∈ sGetD (recordAll [("B.zip", ["A.zip"])]).dependents "A.zip") ∧
    ("B.zip" ∈ sGetD (update_dependencies (recordAll [("B.zip", ["A.zip"])])
        "B.zip" []).dependents "A.zip") :=
  ⟨by decide, C10_dependents_never_shrink (recordAll [("B.zip", ["A.zip"])])
    "B.zip" [] "A.zip" "B.zip" (by decide)⟩

theorem iterate_update_count (n : String) (deps : List String) (dep : String)
    (hdep : dep ∈ deps) :
    ∀ (cnt : Nat) (d : DepData), List.count n (sGetD d.dependents dep) = 1 →
      List.count n (sGetD (((fun d => update_dependencies d n deps)^[cnt]) d).dependents dep) = 1 := by
  intro cnt
  induction cnt with
  | zero => intro d hd; exact hd
  | succ cnt ih =>
    intro d hd
    rw [Function.iterate_succ_apply]
    apply ih
    show List.count n (sGetD (deps.foldl (fun m d => depStep m n d) d.dependents) dep) = 1
    rw [foldDep_count n dep deps d.dependents (le_of_eq hd), if_pos hdep]

/-- C4: starting from any graph state the program can produce (any record
sequence from the empty graph), one or more repeated
`update_dependencies name deps` calls leave `name` in `dependents[dep]`
exactly once for each `dep ∈ deps`, even when `deps` itself contains
duplicates. -/
theorem C4_reverse_index_idempotent (ops : List (String × List String)) (n : String)
    (deps : List String) (dep : String) (cnt : Nat) (hdep : dep ∈ deps) :
    List.count n (sGetD (((fun d => update_dependencies d n deps)^[cnt + 1])
      (recordAll ops)).dependents dep) = 1 := by
  rw [Function.iterate_succ_apply]
  apply iterate_update_count n deps dep hdep cnt
  show List.count n (sGetD (deps.foldl (fun m d => depStep m n d)
    (recordAll ops).dependents) dep) = 1
  rw [foldDep_count n dep deps (recordAll ops).dependents (recordAll_count ops dep n),
    if_pos hdep]

/-- Witness for C4: one record call with a duplicated dependency list
produces a single dependents entry. -/
theorem C4_witness :
    ("A.zip" ∈ (["A.zip", "A.zip"] : List String)) ∧
    List.count "B.zip" (sGetD (((fun d => update_dependencies d "B.zip" ["A.zip", "A.zip"])^[0 + 1])
      (recordAll [])).dependents "A.zip") = 1 :=
  ⟨by decide, C4_reverse_index_idempotent [] "B.zip" ["A.zip", "A.zip"] "A.zip" 0 (by decide)⟩

/-- C2 (counterexample): on a reachable graph state with a stale dependents
entry, `check_unused_dependencies` does not return a dependency even though
no currently-installed package other than the removed one has it in its
dependency list.  After `B -> [A]`, `B -> []`, `X -> [A]` with installed set
`{A, B}` and removed update `X`, the stale entry `B ∈ dependents[A]` hides
the orphan `A`. -/
theorem C2_counterexample :
    ("A.zip" ∈ sGetD staleGraph.dependencies "X.zip" ∧
      (["A.zip", "B.zip"] : List String).contains "A.zip" = true ∧
      ∀ p ∈ (["A.zip", "B.zip"] : List String), p ≠ "X.zip" →
        "A.zip" ∉ sGetD staleGraph.dependencies p) ∧
    "A.zip" ∉ check_unused_dependencies staleGraph ["A.zip", "B.zip"] "X.zip" := by
  decide

/-- C2 (amended): `check_unused_dependencies` returns a dependency `d` of the
removed update iff `d` is installed and no installed package other than the
removed one occurs in the stored `dependents[d]` index entry.  (The claimed
"has `d` in its dependency list" phrasing only coincides with this when the
two indexes are mutually consistent, which stale dependents entries break;
the check is one-hop over the stored index, not transitive.) -/
theorem C2_unused_iff (d : DepData) (installed : List String) (X x : String) :
    x ∈ check_unused_dependencies d installed X ↔
      (x ∈ sGetD d.dependencies X ∧ installed.contains x = true ∧
        ∀ q ∈ sGetD d.dependents x, q = X ∨ installed.contains q = false) := by
  unfold check_unused_dependencies
  rw [cudFold_eq d installed X (sGetD d.dependencies X) [], List.nil_append, List.mem_filter]
  constructor
  · rintro ⟨h1, h2⟩
    obtain ⟨hc, hn⟩ := Bool.and_eq_true_iff.mp h2
    rw [Bool.not_eq_true'] at hn
    have hany : (sGetD d.dependents x).any (fun q => q != X && installed.contains q) = false := hn
    refine ⟨h1, hc, ?_⟩
    intro q hq
    by_cases hqx : q = X
    · exact Or.inl hqx
    · right
      have hnq := List.any_eq_false.mp hany q hq
      cases hic : installed.contains q with
      | false => rfl
      | true =>
        exfalso
        apply hnq
        rw [hic, Bool.and_true]
        exact bne_iff_ne.mpr hqx
  · rintro ⟨h1, hc, hall⟩
    refine ⟨h1, ?_⟩
    rw [hc, Bool.true_and, Bool.not_eq_true']
    apply List.any_eq_false.mpr
    intro q hq
    rcases hall q hq with hqx | hic
    · subst hqx
      simp
    · have hqn : q ∉ installed := by simpa using hic
      simp [hqn]

/-- Witness for C2 on the spec's own scenario: graph `B -> [A]`, installed
set `{A}`, removed update `B`; the query returns `A` and the amended
characterization agrees. -/
theorem C2_witness :
    ("A.zip" ∈ check_unused_dependencies (recordAll [("B.zip", ["A.zip"])]) ["A.zip"] "B.zip") ∧
    ("A.zip" ∈ sGetD (recordAll [("B.zip", ["A.zip"])]).dependencies "B.zip" ∧
      (["A.zip"] : List String).contains "A.zip" = true ∧
      ∀ q ∈ sGetD (recordAll [("B.zip", ["A.zip"])]).dependents "A.zip",
        q = "B.zip" ∨ (["A.zip"] : List String).contains q = false) :=
  ⟨by decide, (C2_unused_iff (recordAll [("B.zip", ["A.zip"])]) ["A.zip"] "B.zip" "A.zip").mp
    (by decide)⟩

-- ### Delta-engine lemmas

theorem alGet_alErase_self {α : Type} (m : List (String × α)) (k : String) :
    alGet (alErase m k) k = none := by
  induction m with
  | nil => rfl
  | cons p m ih =>
    rw [alErase, List.filter_cons]
    by_cases hp : p.1 = k
    · simpa [hp] using ih
    · have hb : (p.1 == k) = false := by simp [hp]
      rw [if_pos (by simp [hb])]
      rw [alGet_cons, hb, if_neg (by simp)]
      exact ih

theorem alGet_alErase_ne {α : Type} (m : List (String × α)) (k k' : String)
    (hne : k' ≠ k) : alGet (alErase m k) k' = alGet m k' := by
  induction m with
  | nil => rfl
  | cons p m ih =>
    rw [alErase, List.filter_cons]
    by_cases hp : p.1 = k
    · have h1 : ¬(k = k') := fun hx => hne hx.symm
      have hb' : (p.1 == k') = false := by simp [hp, h1]
      rw [if_neg (by simp [hp]), alGet_cons, hb', if_neg (by simp)]
      exact ih
    · have hb : (p.1 == k) = false := by simp [hp]
      rw [if_pos (by simp [hb]), alGet_cons, alGet_cons]
      by_cases h2 : p.1 = k'
      · simp [h2]
      · have hb2 : (p.1 == k') = false := by simp [h2]
        rw [hb2, if_neg (by simp), if_neg (by simp)]
        exact ih

theorem alGet_alErase_some {α : Type} (m : List (String × α)) (k p : String) (c : α)
    (h : alGet (alErase m k) p = some c) : alGet m p = some c := by
  by_cases hp : p = k
  · subst hp
    rw [alGet_alErase_self] at h
    cases h
  · rwa [alGet_alErase_ne m k p hp] at h

theorem alContains_alErase_self {α : Type} (m : List (String × α)) (k : String) :
    alContains (alErase m k) k = false := by
  rw [alContains_eq_isSome, alGet_alErase_self]
  rfl

theorem analyzeStep_fs_some (pf : String) (st : AnalyzeResult × FS) (e : ZipEntry)
    (p : String) (c : Nat) (h : alGet (analyzeStep pf st e).2 p = some c) :
    alGet st.2 p = some c := by
  simp only [analyzeStep] at h
  cases hd : e.isDir with
  | true => rw [hd, if_pos rfl] at h; exact h
  | false =>
    rw [hd, if_neg Bool.false_ne_true] at h
    cases hc : alContains st.2 (joinPath pf e.path) with
    | true =>
      rw [hc, if_pos rfl] at h
      exact alGet_alErase_some st.2 (joinPath pf e.path) p c h
    | false =>
      rw [hc, if_neg Bool.false_ne_true] at h
      exact h

theorem analyzeFold_fs_some (pf : String) (entries : List ZipEntry) :
    ∀ (st : AnalyzeResult × FS) (p : String) (c : Nat),
      alGet (entries.foldl (analyzeStep pf) st).2 p = some c → alGet st.2 p = some c := by
  induction entries with
  | nil => intro st p c h; exact h
  | cons e rest ih =>
    intro st p c h
    rw [List.foldl_cons] at h
    exact analyzeStep_fs_some pf st e p c (ih (analyzeStep pf st e) p c h)

theorem analyzeFold_contains (pf : String) (entries : List ZipEntry)
    (st : AnalyzeResult × FS) (p : String)
    (h : alContains (entries.foldl (analyzeStep pf) st).2 p = true) :
    alContains st.2 p = true := by
  rw [alContains_eq_isSome] at h ⊢
  obtain ⟨c, hc⟩ := Option.isSome_iff_exists.mp h
  rw [analyzeFold_fs_some pf entries st p c hc]
  rfl

theorem analyzeStep_kills (pf : String) (st : AnalyzeResult × FS) (e : ZipEntry)
    (hd : e.isDir = false) :
    alContains (analyzeStep pf st e).2 (joinPath pf e.path) = false := by
  simp only [analyzeStep]
  rw [hd, if_neg Bool.false_ne_true]
  cases hc : alContains st.2 (joinPath pf e.path) with
  | true =>
    rw [if_pos rfl]
    exact alContains_alErase_self st.2 (joinPath pf e.path)
  | false =>
    rw [if_neg Bool.false_ne_true]
    exact hc

theorem analyzeFold_absent (pf : String) (entries : List ZipEntry) :
    ∀ (st : AnalyzeResult × FS) (e : ZipEntry), e ∈ entries → e.isDir = false →
      alContains (entries.foldl (analyzeStep pf) st).2 (joinPath pf e.path) = false := by
  induction entries with
  | nil => intro st e he; cases he
  | cons x rest ih =>
    intro st e he hd
    rw [List.foldl_cons]
    rcases List.mem_cons.mp he with h1 | h1
    · subst h1
      cases hq : alContains (rest.foldl (analyzeStep pf) (analyzeStep pf st e)).2
          (joinPath pf e.path) with
      | false => rfl
      | true =>
        have := analyzeFold_contains pf rest (analyzeStep pf st e) (joinPath pf e.path) hq
        rw [analyzeStep_kills pf st e hd] at this
        cases this
    · exact ih (analyzeStep pf st x) e h1 hd

/-- C3: round trip of the delta engine.  For every archive, flag setting and
starting file system: (1) every regular-file entry whose target did not
pre-exist is absent again after `apply_update_zip` followed by
`analyze_update_zip`; (2) the reversal only deletes — any file surviving the
reversal still has its post-application content, so prior content of
overwritten files is never restored. -/
theorem C3_roundtrip (ar : Archive) (pp : Bool) (fs0 : FS) (zp pf : String) :
    (∀ e ∈ ar.entries, e.isDir = false →
      alContains fs0 (joinPath pf e.path) = false →
      alContains (analyze_update_zip ar pp (apply_update_zip ar pp fs0 zp pf).2 zp pf).2
        (joinPath pf e.path) = false) ∧
    (∀ p c,
      alGet (analyze_update_zip ar pp (apply_update_zip ar pp fs0 zp pf).2 zp pf).2 p = some c →
      alGet (apply_update_zip ar pp fs0 zp pf).2 p = some c) := by
  by_cases h1 : ar.present = false
  · have ha : ∀ fs, (analyze_update_zip ar pp fs zp pf).2 = fs := by
      intro fs; simp [analyze_update_zip, h1]
    have hb : (apply_update_zip ar pp fs0 zp pf).2 = fs0 := by
      simp [apply_update_zip, h1]
    refine ⟨?_, ?_⟩
    · intro e he hd habs
      rw [ha, hb]
      exact habs
    · intro p c
      rw [ha]
      exact id
  · by_cases h2 : pp = false
    · have ha : ∀ fs, (analyze_update_zip ar pp fs zp pf).2 = fs := by
        intro fs; simp [analyze_update_zip, h1, h2]
      have hb : (apply_update_zip ar pp fs0 zp pf).2 = fs0 := by
        simp [apply_update_zip, h1, h2]
      refine ⟨?_, ?_⟩
      · intro e he hd habs
        rw [ha, hb]
        exact habs
      · intro p c
        rw [ha]
        exact id
    · by_cases h3 : ar.valid = false
      · have ha : ∀ fs, (analyze_update_zip ar pp fs zp pf).2 = fs := by
          intro fs; simp [analyze_update_zip, h1, h2, h3]
        have hb : (apply_update_zip ar pp fs0 zp pf).2 = fs0 := by
          simp [apply_update_zip, h1, h2, h3]
        refine ⟨?_, ?_⟩
        · intro e he hd habs
          rw [ha, hb]
          exact habs
        · intro p c
          rw [ha]
          exact id
      · have ha : ∀ fs, (analyze_update_zip ar pp fs zp pf) =
            ar.entries.foldl (analyzeStep pf) (⟨[], [], []⟩, fs) := by
          intro fs; simp [analyze_update_zip, h1, h2, h3]
        refine ⟨?_, ?_⟩
        · intro e he hd _
          rw [ha]
          exact analyzeFold_absent pf ar.entries _ e he hd
        · intro p c
          rw [ha]
          exact analyzeFold_fs_some pf ar.entries _ p c

/-- Witness for C3: archive `arX` (one file `x.txt`) applied to a primary
folder holding only `p/z.txt`; after reversal the fresh file is gone and the
unrelated surviving file keeps its content. -/
theorem C3_witness :
    ((⟨"x.txt", false, 7⟩ : ZipEntry) ∈ arX.entries ∧
      alContains [("p/z.txt", 3)] (joinPath "p" "x.txt") = false ∧
      alContains (analyze_update_zip arX true
          (apply_update_zip arX true [("p/z.txt", 3)] "u.zip" "p").2 "u.zip" "p").2
        (joinPath "p" "x.txt") = false) ∧
    (alGet (analyze_update_zip arX true
        (apply_update_zip arX true [("p/z.txt", 3)] "u.zip" "p").2 "u.zip" "p").2
      "p/z.txt" = some 3 ∧
     alGet (apply_update_zip arX true [("p/z.txt", 3)] "u.zip" "p").2 "p/z.txt" = some 3) :=
  ⟨⟨by decide, by decide,
    (C3_roundtrip arX true [("p/z.txt", 3)] "u.zip" "p").1 ⟨"x.txt", false, 7⟩
      (by decide) rfl (by decide)⟩,
   ⟨by decide,
    (C3_roundtrip arX true [("p/z.txt", 3)] "u.zip" "p").2 "p/z.txt" 3 (by decide)⟩⟩

/-- C8: fail-fast of the delta engine.  When the archive path does not exist,
the primary folder does not exist, or the container is not a valid zip, both
`apply_update_zip` and `analyze_update_zip` return their first two lists
empty, exactly one synthetic failure entry, and an unchanged file system. -/
theorem C8_fail_fast (ar : Archive) (pp : Bool) (fs : FS) (zp pf : String)
    (h : ar.present = false ∨ pp = false ∨ ar.valid = false) :
    ((apply_update_zip ar pp fs zp pf).1.copied = [] ∧
     (apply_update_zip ar pp fs zp pf).1.overwritten = [] ∧
     (apply_update_zip ar pp fs zp pf).1.failed.length = 1 ∧
     (apply_update_zip ar pp fs zp pf).2 = fs) ∧
    ((analyze_update_zip ar pp fs zp pf).1.removed = [] ∧
     (analyze_update_zip ar pp fs zp pf).1.not_found = [] ∧
     (analyze_update_zip ar pp fs zp pf).1.failed.length = 1 ∧
     (analyze_update_zip ar pp fs zp pf).2 = fs) := by
  by_cases h1 : ar.present = false
  · simp [apply_update_zip, analyze_update_zip, h1]
  · by_cases h2 : pp = false
    · simp [apply_update_zip, analyze_update_zip, h1, h2]
    · by_cases h3 : ar.valid = false
      · simp [apply_update_zip, analyze_update_zip, h1, h2, h3]
      · rcases h with h | h | h
        · exact absurd h h1
        · exact absurd h h2
        · exact absurd h h3

/-- Witness for C8: a missing archive path. -/
theorem C8_witness :
    (missingArchive.present = false ∨ true = false ∨ missingArchive.valid = false) ∧
    ((apply_update_zip missingArchive true [("p/z.txt", 3)] "u.zip" "p").1.copied = [] ∧
     (apply_update_zip missingArchive true [("p/z.txt", 3)] "u.zip" "p").1.overwritten = [] ∧
     (apply_update_zip missingArchive true [("p/z.txt", 3)] "u.zip" "p").1.failed.length = 1 ∧
     (apply_update_zip missingArchive true [("p/z.txt", 3)] "u.zip" "p").2 = [("p/z.txt", 3)]) ∧
    ((analyze_update_zip missingArchive true [("p/z.txt", 3)] "u.zip" "p").1.removed = [] ∧
     (analyze_update_zip missingArchive true [("p/z.txt", 3)] "u.zip" "p").1.not_found = [] ∧
     (analyze_update_zip missingArchive true [("p/z.txt", 3)] "u.zip" "p").1.failed.length = 1 ∧
     (analyze_update_zip missingArchive true [("p/z.txt", 3)] "u.zip" "p").2 = [("p/z.txt", 3)]) :=
  ⟨Or.inl rfl,
    (C8_fail_fast missingArchive true [("p/z.txt", 3)] "u.zip" "p" (Or.inl rfl)).1,
    (C8_fail_fast missingArchive true [("p/z.txt", 3)] "u.zip" "p" (Or.inl rfl)).2⟩

/-- C5: cycle-safe rendering.  `print_dependencies` is a total function (its
definition is accepted by the termination checker with the measure "keys not
yet on the ancestor path", so the traversal terminates on every finite
dependency graph, cyclic ones of any cycle length included); and whenever the
next dependency already lies on the current ancestor path, exactly one line
with the `(circular dependency)` annotation is emitted for it and it is not
expanded further — the traversal moves on to the remaining siblings. -/
theorem C5_cycle_marker (d : DepData) (installed : List String) (indent : String)
    (visited : List String) (dep : String) (rest : List String)
    (h : visited.contains dep = true) :
    print_dependencies d installed indent visited (dep :: rest) =
      (indent ++ (if rest.isEmpty then "└── " else "├── ") ++ dep ++ " " ++
        (if installed.contains dep then "[INSTALLED]" else "[MISSING]") ++
        " (circular dependency)") ::
      print_dependencies d installed indent visited rest := by
  simp only [print_dependencies]
  rw [dif_pos h]

/-- Witness for C5 on the two-cycle `A -> B -> A`: rendering `A` with `A`
already on the path prints the single annotated line and terminates. -/
theorem C5_witness :
    ((["A", "B"] : List String).contains "A" = true) ∧
    print_dependencies cycleGraph [] "" ["A", "B"] ["A"] =
      ["└── A [MISSING] (circular dependency)"] := by
  refine ⟨rfl, ?_⟩
  rw [C5_cycle_marker cycleGraph [] "" ["A", "B"] "A" [] rfl]
  rw [show print_dependencies cycleGraph [] "" ["A", "B"] [] = [] from by
    simp [print_dependencies]]
  rfl

-- ### Orchestrator lemmas and claims

theorem findFreeName_first (installed : List String) (base ext : String) :
    ∀ (fuel i : Nat),
      (∃ k, i ≤ k ∧ k < i + fuel ∧ installed.contains (suffixName base ext k) = false) →
      ∃ r, i ≤ r ∧
        findFreeName installed base ext i fuel = some (suffixName base ext r) ∧
        installed.contains (suffixName base ext r) = false ∧
        ∀ j, i ≤ j → j < r → installed.contains (suffixName base ext j) = true := by
  intro fuel
  induction fuel with
  | zero =>
    intro i h
    obtain ⟨k, hk1, hk2, _⟩ := h
    omega
  | succ fuel ih =>
    intro i h
    obtain ⟨k, hk1, hk2, hk3⟩ := h
    by_cases hc : installed.contains (suffixName base ext i) = true
    · have hk1' : i + 1 ≤ k := by
        rcases Nat.eq_or_lt_of_le hk1 with he | hl
        · rw [← he] at hk3
          rw [hk3] at hc
          cases hc
        · omega
      obtain ⟨r, hr1, hr2, hr3, hr4⟩ := ih (i + 1) ⟨k, hk1', by omega, hk3⟩
      refine ⟨r, by omega, ?_, hr3, ?_⟩
      · simp only [findFreeName]
        rw [if_pos hc]
        exact hr2
      · intro j hj1 hj2
        rcases Nat.eq_or_lt_of_le hj1 with he | hl
        · rw [← he]
          exact hc
        · exact hr4 j (by omega) hj2
    · have hc' : installed.contains (suffixName base ext i) = false := by
        cases hx : installed.contains (suffixName base ext i) with
        | false => rfl
        | true => exact absurd hx hc
      refine ⟨i, Nat.le_refl i, ?_, hc', ?_⟩
      · simp only [findFreeName]
        rw [hc', if_neg Bool.false_ne_true]
      · intro j hj1 hj2
        omega

/-- C9: collision-safe relocation.  When the archive's name already exists in
the Installed bucket and some suffix within the loop's fuel is free, the
relocation target is `base_r.ext` for the FIRST free index `r ≥ 1` (every
smaller index is occupied), and the chosen name is not an existing installed
name — so the pre-existing installed archive is never overwritten. -/
theorem C9_collision_suffix (installed : List String) (zip_name : String) (fuel : Nat)
    (hc : installed.contains zip_name = true)
    (hfree : ∃ k, 1 ≤ k ∧ k < 1 + fuel ∧
      installed.contains (suffixName (splitExt zip_name).1 (splitExt zip_name).2 k) = false) :
    ∃ r, 1 ≤ r ∧
      resolveTargetName installed zip_name fuel =
        some (suffixName (splitExt zip_name).1 (splitExt zip_name).2 r) ∧
      installed.contains (suffixName (splitExt zip_name).1 (splitExt zip_name).2 r) = false ∧
      ∀ j, 1 ≤ j → j < r →
        installed.contains (suffixName (splitExt zip_name).1 (splitExt zip_name).2 j) = true := by
  obtain ⟨r, hr1, hr2, hr3, hr4⟩ :=
    findFreeName_first installed (splitExt zip_name).1 (splitExt zip_name).2 fuel 1 hfree
  refine ⟨r, hr1, ?_, hr3, hr4⟩
  unfold resolveTargetName
  rw [if_pos hc]
  exact hr2

/-- Witness for C9: installing a second `pkg.zip` while `pkg.zip` and
`pkg_1.zip` are already installed picks `pkg_2.zip`. -/
theorem C9_witness :
    ((["pkg.zip", "pkg_1.zip"] : List String).contains "pkg.zip" = true) ∧
    (∃ k, 1 ≤ k ∧ k < 1 + 3 ∧
      (["pkg.zip", "pkg_1.zip"] : List String).contains
        (suffixName (splitExt "pkg.zip").1 (splitExt "pkg.zip").2 k) = false) ∧
    (∃ r, 1 ≤ r ∧
      resolveTargetName ["pkg.zip", "pkg_1.zip"] "pkg.zip" 3 =
        some (suffixName (splitExt "pkg.zip").1 (splitExt "pkg.zip").2 r) ∧
      (["pkg.zip", "pkg_1.zip"] : List String).contains
        (suffixName (splitExt "pkg.zip").1 (splitExt "pkg.zip").2 r) = false ∧
      ∀ j, 1 ≤ j → j < r →
        (["pkg.zip", "pkg_1.zip"] : List String).contains
          (suffixName (splitExt "pkg.zip").1 (splitExt "pkg.zip").2 j) = true) :=
  ⟨by decide, ⟨2, by decide⟩,
    C9_collision_suffix ["pkg.zip", "pkg_1.zip"] "pkg.zip" 3 (by decide) ⟨2, by decide⟩⟩

/-- C7 (counterexample): the per-item logic of `remove_all_updates` is NOT the
per-item logic of `remove_selected_updates`.  On a state where removing
`B.zip` leaves its dependency `A.zip` orphaned, the selected-removal step
(with every prompt answered yes) also cascades `A.zip` away, while the
remove-all step leaves `A.zip` installed: the bulk path has no
installed-dependents gate and no orphan detection. -/
theorem C7_counterexample :
    remove_selected_step true "prim" cascadeState "B.zip" ⟨true, true⟩ ≠
      remove_all_step true "prim" cascadeState "B.zip" := by
  decide

/-- C7 (amended): `remove_all_updates` runs one confirmation for the whole
batch and then folds the bulk per-item step over the installed listing in
listing order; that bulk step applies only the delta reversal and the
`removed > 0` relocation gate, and coincides with the per-item
`remove_selected_updates` step exactly when the item has no installed
dependents and no unused dependencies — the installed-dependents warning gate
and the orphan detection are omitted from the bulk path. -/
theorem C7_remove_all_refinement (pp : Bool) (pf : String) (s : SysState) :
    (remove_all_updates pp pf false s = s) ∧
    (remove_all_updates pp pf true s =
      (s.installed.map Prod.fst).foldl (remove_all_step pp pf) s) ∧
    (∀ (n : String) (dec : RemoveDecisions),
      (sGetD s.dep_data.dependents n).filter
        (fun q => (s.installed.map Prod.fst).contains q) = [] →
      check_unused_dependencies s.dep_data ((alErase s.installed n).map Prod.fst) n = [] →
      remove_selected_step pp pf s n dec = remove_all_step pp pf s n) := by
  refine ⟨?_, ?_, ?_⟩
  · simp only [remove_all_updates]
    cases hni : (s.installed.map Prod.fst).isEmpty with
    | true => simp
    | false => simp
  · simp only [remove_all_updates]
    cases hni : (s.installed.map Prod.fst).isEmpty with
    | true =>
      have hnil : s.installed.map Prod.fst = [] := by
        simpa using hni
      simp [hnil]
    | false => simp
  · intro n dec hdep hunu
    cases hg : alGet s.installed n with
    | none => simp only [remove_selected_step, remove_all_step, hg]
    | some ar =>
      simp only [remove_selected_step, remove_all_step, hg]
      rw [hdep]
      rw [if_neg (by simp)]
      by_cases hlen : (analyze_update_zip ar pp s.fs n pf).1.removed.length > 0
      · rw [if_pos hlen, if_pos hlen, hunu]
        rw [if_neg (by simp)]
      · rw [if_neg hlen, if_neg hlen]

/-- Witness for C7: a single installed package with no dependency data — the
bulk step and the selected step agree, and an unconfirmed batch is a no-op. -/
theorem C7_witness :
    (remove_selected_step true "prim" plainState "A.zip" ⟨false, false⟩ =
      remove_all_step true "prim" plainState "A.zip") ∧
    (remove_all_updates true "prim" false plainState = plainState) := by
  have h := C7_remove_all_refinement true "prim" plainState
  exact ⟨h.2.2 "A.zip" ⟨false, false⟩ (by decide) (by decide), h.1⟩

/-- C6: relocation gate.  For every install item (any state where the name is
available as archive `ar`), the archive leaves the Available bucket and a new
entry (under the collision-resolved name) enters the Installed bucket exactly
when `copied + overwritten > 0`, and with zero transferred files all buckets
stay unchanged.  Independently, for every removal item (any state where the
name is installed as archive `br`; past the dependents gate, with no
cascade), the archive moves from Installed to Uninstalled exactly when
`removed > 0`, and with zero removed files the buckets stay unchanged. -/
theorem C6_relocation_gate (pp : Bool) (pf : String) (fuel : Nat) (s : SysState)
    (n : String) (deps : List String) (ar br : Archive) (t : String) :
    (alGet s.available n = some ar →
      (((apply_update_zip ar pp s.fs n pf).1.copied.length +
          (apply_update_zip ar pp s.fs n pf).1.overwritten.length = 0 →
        (install_selected_step pp pf fuel s n (some deps)).available = s.available ∧
        (install_selected_step pp pf fuel s n (some deps)).installed = s.installed ∧
        (install_selected_step pp pf fuel s n (some deps)).uninstalled = s.uninstalled) ∧
       ((apply_update_zip ar pp s.fs n pf).1.copied.length +
          (apply_update_zip ar pp s.fs n pf).1.overwritten.length > 0 →
        resolveTargetName (s.installed.map Prod.fst) n fuel = some t →
        (install_selected_step pp pf fuel s n (some deps)).available = alErase s.available n ∧
        (install_selected_step pp pf fuel s n (some deps)).installed = s.installed ++ [(t, ar)] ∧
        (install_selected_step pp pf fuel s n (some deps)).uninstalled = s.uninstalled))) ∧
    (alGet s.installed n = some br →
      (((analyze_update_zip br pp s.fs n pf).1.removed.length = 0 →
        (remove_selected_step pp pf s n ⟨true, false⟩).installed = s.installed ∧
        (remove_selected_step pp pf s n ⟨true, false⟩).uninstalled = s.uninstalled ∧
        (remove_selected_step pp pf s n ⟨true, false⟩).available = s.available) ∧
       ((analyze_update_zip br pp s.fs n pf).1.removed.length > 0 →
        (remove_selected_step pp pf s n ⟨true, false⟩).installed = alErase s.installed n ∧
        (remove_selected_step pp pf s n ⟨true, false⟩).uninstalled =
          alErase s.uninstalled n ++ [(n, br)] ∧
        (remove_selected_step pp pf s n ⟨true, false⟩).available = s.available))) := by
  refine ⟨fun hav => ⟨?_, ?_⟩, fun hin => ⟨?_, ?_⟩⟩
  · intro hz
    have h1 : (apply_update_zip ar pp s.fs n pf).1.copied.length = 0 := by omega
    have h2 : (apply_update_zip ar pp s.fs n pf).1.overwritten.length = 0 := by omega
    simp only [install_selected_step, hav, Option.getD_some]
    rw [h1, h2]
    rw [if_neg (by simp)]
    exact ⟨rfl, rfl, rfl⟩
  · intro hpos hres
    have hcond : ((apply_update_zip ar pp s.fs n pf).1.copied.length > 0 ||
        (apply_update_zip ar pp s.fs n pf).1.overwritten.length > 0) = true := by
      by_cases h1 : (apply_update_zip ar pp s.fs n pf).1.copied.length > 0
      · simp [h1]
      · have h2 : (apply_update_zip ar pp s.fs n pf).1.overwritten.length > 0 := by omega
        simp [h2]
    simp only [install_selected_step, hav, Option.getD_some]
    rw [hcond, if_pos rfl, hres]
    exact ⟨rfl, rfl, rfl⟩
  · intro hz
    simp only [remove_selected_step, hin]
    rw [if_neg (by simp)]
    rw [if_neg (by omega)]
    exact ⟨rfl, rfl, rfl⟩
  · intro hpos
    simp only [remove_selected_step, hin]
    rw [if_neg (by simp)]
    rw [if_pos hpos]
    rw [if_neg (by simp)]
    exact ⟨rfl, rfl, rfl⟩

/-- Witness for C6 at three states: an ordinary install on `availOnlyState`
(name not installed, kept under its own name), a colliding install on
`gateState` (relocated as `A_1.zip`), and an ordinary removal on
`plainState` (name not available, moved to Uninstalled). -/
theorem C6_witness :
    (((apply_update_zip arX true availOnlyState.fs "A.zip" "p").1.copied.length +
       (apply_update_zip arX true availOnlyState.fs "A.zip" "p").1.overwritten.length > 0) ∧
     resolveTargetName (availOnlyState.installed.map Prod.fst) "A.zip" 2 = some "A.zip" ∧
     (install_selected_step true "p" 2 availOnlyState "A.zip" (some [])).available =
       alErase availOnlyState.available "A.zip" ∧
     (install_selected_step true "p" 2 availOnlyState "A.zip" (some [])).installed =
       availOnlyState.installed ++ [("A.zip", arX)]) ∧
    (resolveTargetName (gateState.installed.map Prod.fst) "A.zip" 2 = some "A_1.zip" ∧
     (install_selected_step true "p" 2 gateState "A.zip" (some [])).installed =
       gateState.installed ++ [("A_1.zip", arX)]) ∧
    (((analyze_update_zip arA true plainState.fs "A.zip" "prim").1.removed.length > 0) ∧
     (remove_selected_step true "prim" plainState "A.zip" ⟨true, false⟩).installed =
       alErase plainState.installed "A.zip" ∧
     (remove_selected_step true "prim" plainState "A.zip" ⟨true, false⟩).uninstalled =
       alErase plainState.uninstalled "A.zip" ++ [("A.zip", arA)]) := by
  have h1 := C6_relocation_gate true "p" 2 availOnlyState "A.zip" [] arX arX "A.zip"
  have h2 := C6_relocation_gate true "p" 2 gateState "A.zip" [] arX arY "A_1.zip"
  have h3 := C6_relocation_gate true "prim" 2 plainState "A.zip" [] arA arA "A.zip"
  refine ⟨⟨by decide, by decide, ?_, ?_⟩, ⟨by decide, ?_⟩, ⟨by decide, ?_, ?_⟩⟩
  · exact ((h1.1 (by decide)).2 (by decide) (by decide)).1
  · exact ((h1.1 (by decide)).2 (by decide) (by decide)).2.1
  · exact ((h2.1 (by decide)).2 (by decide) (by decide)).2.1
  · exact ((h3.2 (by decide)).2 (by decide)).1
  · exact ((h3.2 (by decide)).2 (by decide)).2.1
